import Mathlib

/-!
Verification development for the backend storage-node engine of a small
distributed file store (servers `s2.c`, PDF node, and its ZIP sibling).
The node's command handlers are shallowly embedded: the filesystem is a
finite tree of named entries, C strings are lists of characters, and the
bytes a handler writes onto its connection are recorded as a list of
output events.  Buffer-size truncation of reply text is not modelled;
the per-`write` byte counts of the source are.
-/

/-- C strings are modelled as lists of characters. -/
abbrev Str := List Char

/-- One observable event on the connection: a payload chunk written by the
transfer loop, the 8-byte size frame (abstracted to its value), or a
textual message reply. -/
inductive Out where
  | bytes (b : List Nat) : Out
  | size (n : Nat) : Out
  | msg (s : Str) : Out
deriving DecidableEq, Repr

/-- The source writes a fixed byte count for each reply literal; `takeMsg`
reproduces exactly the bytes written. -/
def takeMsg (s : String) (n : Nat) : Out := Out.msg (s.data.take n)

def errNotPdf : Out := takeMsg "ERROR: S2 only handles PDF files" 31

def errMkdir : Out := takeMsg "ERROR: Failed to create directory" 32

def errRename : Out := takeMsg "ERROR: Failed to move file to destination" 38

def okUpload : Out := takeMsg "SUCCESS: PDF file stored in S2" 30

def errNotFound : Out := takeMsg "ERROR: PDF file not found in S2" 30

def errTransfer : Out := takeMsg "ERROR: File transfer failed" 27

def errTarCreate : Out := takeMsg "ERROR: Failed to create tar file" 32

def errTarOpen : Out := takeMsg "ERROR: Failed to open tar file" 30

/-- The node's storage root: `snprintf(s2_path, ..., "%s/S2%s", getenv("HOME"), ...)`. -/
def storageRoot (home : Str) : Str := home ++ "/S2".data

/-- Path translation used by `upload_file`, `download_file` and `remove_file`:
`"%s/S2%s"` applied to `HOME` and `vpath + 3` (skipping the `~S1` marker). -/
def translatePath (home vpath : Str) : Str := storageRoot home ++ vpath.drop 3

/-- Path translation used by `display_filenames`, which special-cases the
bare root marker: `(strcmp(pathname, "~S1") == 0) ? "" : (pathname + 3)`. -/
def translateDisp (home pathname : Str) : Str :=
  storageRoot home ++ (if pathname = "~S1".data then [] else pathname.drop 3)

/-- Splits a path into its `'/'`-separated segments, dropping empty pieces;
`acc` is the current segment accumulated in reverse. -/
def splitSlashAux : Str → Str → List Str
  | [], acc => if acc = [] then [] else [acc.reverse]
  | c :: rest, acc =>
      if c = '/' then
        (if acc = [] then splitSlashAux rest [] else acc.reverse :: splitSlashAux rest [])
      else splitSlashAux rest (c :: acc)

def splitSlash (s : Str) : List Str := splitSlashAux s []

/-- `basename(3)` on a slash-free tail: the characters after the last `'/'`.
(The model assumes the argument does not end in a slash.) -/
def basenameL (s : Str) : Str := (s.reverse.takeWhile (fun c => c ≠ '/')).reverse

/-- `strrchr(name, '.')`: the suffix of `name` starting at its last dot,
or `none` when `name` has no dot. -/
def strrchrDot : Str → Option Str
  | [] => none
  | c :: rest =>
      match strrchrDot rest with
      | some s => some s
      | none => if c = '.' then some (c :: rest) else none

/-- The extension test of `upload_file` and of the listing filter:
`ext != NULL && strcmp(ext, ".pdf") == 0`. -/
def extOk (name : Str) : Bool :=
  match strrchrDot name with
  | some e => e = ".pdf".data
  | none => false

/-! ### The filesystem model

A directory tree: regular files carry their bytes, directories carry an
ordered list of named children (directory-entry order). -/

mutual
inductive Entry where
  | file (content : List Nat) : Entry
  | dir (children : Entries) : Entry
inductive Entries where
  | nil : Entries
  | cons (name : Str) (e : Entry) (rest : Entries) : Entries
end

/-- First child with the given name, if any. -/
def findE : Entries → Str → Option Entry
  | Entries.nil, _ => none
  | Entries.cons n e rest, s => if n = s then some e else findE rest s

/-- Replace the first child with the given name (no change when absent). -/
def replaceE : Entries → Str → Entry → Entries
  | Entries.nil, _, _ => Entries.nil
  | Entries.cons n e rest, s, e2 =>
      if n = s then Entries.cons n e2 rest else Entries.cons n e (replaceE rest s e2)

/-- Append a child at the end of the directory-entry list. -/
def appendE : Entries → Str → Entry → Entries
  | Entries.nil, s, e2 => Entries.cons s e2 Entries.nil
  | Entries.cons n e rest, s, e2 => Entries.cons n e (appendE rest s e2)

/-- Drop the first child with the given name. -/
def dropE : Entries → Str → Entries
  | Entries.nil, _ => Entries.nil
  | Entries.cons n e rest, s => if n = s then rest else Entries.cons n e (dropE rest s)

/-- Resolve a segment path against the tree (what `stat` sees). -/
def lookupE : Entry → List Str → Option Entry
  | e, [] => some e
  | Entry.file _, _ :: _ => none
  | Entry.dir cs, s :: rest =>
      match findE cs s with
      | some e => lookupE e rest
      | none => none

/-- `mkdir(2)` at a segment path: an existing target of any kind is `EEXIST`
(which `create_directory_tree` treats as success, leaving it unchanged); a
missing or non-directory parent is a hard failure (`ENOENT`/`ENOTDIR`). -/
def mkdirE : Entry → List Str → Option Entry
  | e, [] => some e
  | Entry.file _, _ :: _ => none
  | Entry.dir cs, s :: rest =>
      match findE cs s with
      | some child =>
          match rest with
          | [] => some (Entry.dir cs)
          | _ :: _ =>
              match mkdirE child rest with
              | some child2 => some (Entry.dir (replaceE cs s child2))
              | none => none
      | none =>
          match rest with
          | [] => some (Entry.dir (appendE cs s (Entry.dir Entries.nil)))
          | _ :: _ => none

/-- The loop of `create_directory_tree`: one `mkdir` per `'/'`-prefix, in
order; `EEXIST` is success, any other failure aborts with `-1`. -/
def cdt : Entry → List (List Str) → Entry × Bool
  | e, [] => (e, true)
  | e, p :: ps =>
      match mkdirE e p with
      | some e2 => cdt e2 ps
      | none => (e, false)

/-- The nonempty prefixes of a segment path, shortest first — the successive
`mkdir` arguments of `create_directory_tree`. -/
def prefixesOf (segs : List Str) : List (List Str) :=
  (List.range segs.length).map (fun i => segs.take (i + 1))

/-- `create_directory_tree(path)`: create every path prefix in order from
root to leaf; returns the new tree and `true` on success. -/
def create_directory_tree (fs : Entry) (path : Str) : Entry × Bool :=
  cdt fs (prefixesOf (splitSlash path))

/-- Remove the entry at a segment path (no change when absent). -/
def removeP (fs : Entry) : List Str → Entry :=
  fun p =>
    match fs, p with
    | e, [] => e
    | Entry.file c, _ :: _ => Entry.file c
    | Entry.dir cs, [s] => Entry.dir (dropE cs s)
    | Entry.dir cs, s :: rest =>
        match findE cs s with
        | some child => Entry.dir (replaceE cs s (removeP child rest))
        | none => Entry.dir cs

/-- Place an entry at a segment path, replacing a first-occurrence child of
the same name; fails when the parent chain is missing or not a directory. -/
def insertP (fs : Entry) (p : List Str) (x : Entry) : Option Entry :=
  match fs, p with
  | _, [] => some x
  | Entry.file _, _ :: _ => none
  | Entry.dir cs, [s] =>
      match findE cs s with
      | some _ => some (Entry.dir (replaceE cs s x))
      | none => some (Entry.dir (appendE cs s x))
  | Entry.dir cs, s :: rest =>
      match findE cs s with
      | some child =>
          match insertP child rest x with
          | some child2 => some (Entry.dir (replaceE cs s child2))
          | none => none
      | none => none

/-- `rename(2)` as used by `upload_file`: fails when the source is missing
or the destination is an existing directory; otherwise moves the source
entry to the destination (overwriting a file of the same name). -/
def renameP (fs : Entry) (src dst : List Str) : Option Entry :=
  match lookupE fs src with
  | none => none
  | some e =>
      match lookupE fs dst with
      | some (Entry.dir _) => none
      | _ => insertP (removeP fs src) dst e

/-! ### The listing engine (`display_filenames` / `list_pdf_files`) -/

/-- `new_relative_path`: the traversal's relative-path accumulator,
`"%s"` for a top-level entry and `"%s/%s"` below. -/
def newRel (rel name : Str) : Str := if rel = [] then name else rel ++ '/' :: name

/-- An emitted listing line: `snprintf(output_path, ..., "~S1/%s", new_relative_path)`. -/
def lineOf (rel : Str) : Str := "~S1/".data ++ rel

mutual
/-- `list_pdf_files(base_path, relative_path)`: the lines the recursive
traversal appends to `file_list`, in directory-entry order. -/
def listLinesE : Entry → Str → List Str
  | Entry.file _, _ => []
  | Entry.dir cs, rel => listLinesC cs rel
/-- The per-entry loop body of `list_pdf_files`. -/
def listLinesC : Entries → Str → List Str
  | Entries.nil, _ => []
  | Entries.cons name e rest, rel => entryOut name e rel ++ listLinesC rest rel
/-- One directory entry's contribution: a matching regular file emits one
line; a subdirectory recurses with the extended relative path. -/
def entryOut : Str → Entry → Str → List Str
  | name, Entry.file _, rel => if extOk name then [lineOf (newRel rel name)] else []
  | name, Entry.dir cs, rel => listLinesC cs (newRel rel name)
end

mutual
/-- Whether the subtree holds any regular file passing the `.pdf` filter. -/
def hasPdfE : Entry → Bool
  | Entry.file _ => false
  | Entry.dir cs => hasPdfC cs
def hasPdfC : Entries → Bool
  | Entries.nil => false
  | Entries.cons name e rest =>
      (match e with
       | Entry.file _ => extOk name
       | Entry.dir cs => hasPdfC cs) || hasPdfC rest
end

/-- Each listing line followed by `"\n"`, concatenated — the `file_list`
buffer `display_filenames` writes back. -/
def joinNL (lines : List Str) : Str :=
  lines.foldr (fun l acc => l ++ '\n' :: acc) []

/-- The lines `display_filenames` gathers for a request: traversal of the
translated path when it is an existing directory, nothing otherwise. -/
def dispLines (fs : Entry) (home pathname : Str) : List Str :=
  match lookupE fs (splitSlash (translateDisp home pathname)) with
  | some (Entry.dir cs) => listLinesC cs []
  | _ => []

/-- `display_filenames(client_sock, pathname)`: reply text and return code.
A missing or non-directory path gets a zero-byte reply and still returns 0. -/
def display_filenames (fs : Entry) (home pathname : Str) : Str × Int :=
  match lookupE fs (splitSlash (translateDisp home pathname)) with
  | some (Entry.dir cs) => (joinNL (listLinesC cs []), 0)
  | _ => ([], 0)

/-! ### The transfer engine -/

/-- The send loop of `download_file`, transcribed chunk by chunk.  `fuel`
is a structural bound on the iteration count (any `fuel ≥ rem` is exact,
since each pass consumes at least one of the `rem` remaining bytes).
`avail` is what `read` can still deliver — the file bytes, possibly fewer
than the announced size if the file was truncated after `stat` (the
acknowledged external-mutation race).  `ws` gives each socket `write`'s
result: `none` accepts the whole chunk, `some m` accepts only `m` bytes;
a write short of the chunk emits the partial bytes then the error reply,
as does a `read` that returns no bytes while `remaining > 0`. -/
def sendLoopF : Nat → List Nat → Nat → List (Option Nat) → List Out
  | 0, _, _, _ => []
  | fuel + 1, avail, rem, ws =>
      if rem = 0 then []
      else
        if (avail.take (min rem 1024)).length = 0 then [errTransfer]
        else
          match ws with
          | some m :: wrest =>
              if m < (avail.take (min rem 1024)).length then
                [Out.bytes ((avail.take (min rem 1024)).take m), errTransfer]
              else
                Out.bytes (avail.take (min rem 1024)) ::
                  sendLoopF fuel (avail.drop (avail.take (min rem 1024)).length)
                    (rem - (avail.take (min rem 1024)).length) wrest
          | none :: wrest =>
              Out.bytes (avail.take (min rem 1024)) ::
                sendLoopF fuel (avail.drop (avail.take (min rem 1024)).length)
                  (rem - (avail.take (min rem 1024)).length) wrest
          | [] =>
              Out.bytes (avail.take (min rem 1024)) ::
                sendLoopF fuel (avail.drop (avail.take (min rem 1024)).length)
                  (rem - (avail.take (min rem 1024)).length) []

def sendLoop (avail : List Nat) (rem : Nat) (ws : List (Option Nat)) : List Out :=
  sendLoopF rem avail rem ws

/-- The 1024-byte chunking of a byte list (`fuel` as in `sendLoopF`). -/
def chunksOfF : Nat → List Nat → List (List Nat)
  | 0, _ => []
  | fuel + 1, l => if l = [] then [] else l.take 1024 :: chunksOfF fuel (l.drop 1024)

def chunksOf (l : List Nat) : List (List Nat) := chunksOfF l.length l

/-- `download_file(client_sock, filename)`.  A missing path is an error
reply with no frame.  An existing regular file gets its size frame and the
chunked payload; `trunc = some k` models the file being externally
truncated to `k` bytes between `stat` and the reads.  A directory passes
`stat`, and on Linux `open(2)` with `O_RDONLY` succeeds on it too, so its
size (`dirSz`, positive on Linux filesystems) is framed before the first
`read(2)` fails with `EISDIR` — modelled as a loop over no available
bytes. -/
def download_file (fs : Entry) (home vpath : Str) (dirSz : Nat)
    (trunc : Option Nat) (ws : List (Option Nat)) : List Out :=
  match lookupE fs (splitSlash (translatePath home vpath)) with
  | none => [errNotFound]
  | some (Entry.file content) =>
      let avail := match trunc with | none => content | some k => content.take k
      Out.size content.length :: sendLoop avail content.length ws
  | some (Entry.dir _) => Out.size dirSz :: sendLoop [] dirSz ws

/-- `upload_file(client_sock, filename, dest_path)`: extension check first
(mismatch replies and touches nothing), then `create_directory_tree` on
`HOME/S2 + dest_path+3`, then `rename` of the staged source onto
`s2_path/basename(filename)`. -/
def upload_file (fs : Entry) (home filename dest : Str) : Entry × List Out :=
  if extOk filename then
    let s2path := translatePath home dest
    match create_directory_tree fs s2path with
    | (fs1, true) =>
        match renameP fs1 (splitSlash filename) (splitSlash s2path ++ [basenameL filename]) with
        | some fs2 => (fs2, [okUpload])
        | none => (fs1, [errRename])
    | (fs1, false) => (fs1, [errMkdir])
  else (fs, [errNotPdf])

/-- `download_tar(client_sock)`, tracking whether `/tmp/pdffiles.tar`
exists when the handler returns.  `tarCmdOk` is the `system(tar_cmd)`
result (the archive file exists with bytes `tarBytes` exactly when it
succeeds, so the `stat` branch follows it); `openOk` the `open(2)` result;
`sendOk` whether `sendfile` delivers (the frame-size `write` result is
ignored by the source).  `unlink` is reached only after a fully successful
transfer. -/
def download_tar (tarCmdOk openOk sendOk : Bool) (tarBytes : List Nat) : Bool × List Out :=
  if tarCmdOk = false then (false, [errTarCreate])
  else if openOk = false then (true, [errTarOpen])
  else if tarBytes = [] then (false, [Out.size 0])
  else if sendOk then (false, [Out.size tarBytes.length, Out.bytes tarBytes])
  else (true, [Out.size tarBytes.length, errTransfer])

/-! ### Small observers used in statements -/

/-- Whether a path resolves to a regular file. -/
def isFileAt (fs : Entry) (p : List Str) : Bool :=
  match lookupE fs p with
  | some (Entry.file _) => true
  | _ => false

/-- Whether a path resolves to a directory. -/
def isDirAt (fs : Entry) (p : List Str) : Bool :=
  match lookupE fs p with
  | some (Entry.dir _) => true
  | _ => false

/-- Whether any size frame occurs among the connection events. -/
def hasSizeFrame (outs : List Out) : Bool :=
  outs.any (fun o => match o with | Out.size _ => true | _ => false)

/-- Total payload bytes carried by `Out.bytes` events. -/
def payloadLen : List Out → Nat
  | [] => 0
  | Out.bytes b :: rest => b.length + payloadLen rest
  | _ :: rest => payloadLen rest

/-- Whether every event is a payload chunk. -/
def allBytes (outs : List Out) : Bool :=
  outs.all (fun o => match o with | Out.bytes _ => true | _ => false)

/-! ### Concrete fixtures used in counterexamples and witnesses -/

/-- A filesystem holding only the staged source `/tmp/report.pdf`
(content `"%PDF"`), before any upload. -/
def demoFS : Entry :=
  Entry.dir (Entries.cons "tmp".data
    (Entry.dir (Entries.cons "report.pdf".data (Entry.file [37, 80, 68, 70]) Entries.nil))
    Entries.nil)

def demoHome : Str := "/home/u".data

/-- State after `uploadf /tmp/report.pdf ~S1/docs` (destination used as a
directory, the layout the node's `rename` produces). -/
def demoFS1 : Entry := (upload_file demoFS demoHome "/tmp/report.pdf".data "~S1/docs".data).1

/-- State after `uploadf /tmp/report.pdf ~S1/docs/report.pdf` (the spec's
scenario, destination carrying the file name). -/
def demoFS2 : Entry :=
  (upload_file demoFS demoHome "/tmp/report.pdf".data "~S1/docs/report.pdf".data).1

/-- Children of the `docs` directory of `demoTxtFS`: one non-matching file. -/
def demoTxtDocs : Entries :=
  Entries.cons "notes.txt".data (Entry.file [104, 105]) Entries.nil

/-- A storage tree whose `docs` directory holds only a `.txt` file. -/
def demoTxtFS : Entry :=
  Entry.dir (Entries.cons "home".data
    (Entry.dir (Entries.cons "u".data
      (Entry.dir (Entries.cons "S2".data
        (Entry.dir (Entries.cons "docs".data (Entry.dir demoTxtDocs) Entries.nil))
        Entries.nil))
      Entries.nil))
    Entries.nil)

/-! ### Lemmas about the extension filter -/

theorem strrchrDot_suffix : ∀ (s t : Str), strrchrDot s = some t → t <:+ s
  | [], t, h => by simp [strrchrDot] at h
  | c :: rest, t, h => by
      unfold strrchrDot at h
      cases hr : strrchrDot rest with
      | some s2 =>
          rw [hr] at h
          cases h
          exact (strrchrDot_suffix rest t hr).trans (List.suffix_cons c rest)
      | none =>
          rw [hr] at h
          by_cases hc : c = '.'
          · rw [if_pos hc] at h
            cases h
            exact List.suffix_refl _
          · rw [if_neg hc] at h
            cases h

/-- A file name passing the node's extension check ends in `".pdf"`. -/
theorem extOk_suffix (f : Str) (h : extOk f = true) : ".pdf".data <:+ f := by
  unfold extOk at h
  cases hf : strrchrDot f with
  | none => rw [hf] at h; cases h
  | some e =>
      rw [hf] at h
      have he : e = ".pdf".data := by exact_mod_cast of_decide_eq_true h
      exact he ▸ strrchrDot_suffix f e hf

/-! ### Claim theorems: path translation, upload validation, listing of
missing directories, archive cleanup, download of missing paths -/

/-- Claim C6: a VirtualPath formed of the root marker `~S1` and a suffix
translates to the storage root (`HOME/S2`) plus that suffix; the empty
suffix gives exactly the storage root; the listing handler's special-cased
translation agrees with the common one on marker-prefixed paths.  The
translator is a plain function of its string arguments, so determinism and
freedom from filesystem access hold by construction. -/
theorem translate_root_marker (home suffix : Str) :
    translatePath home ("~S1".data ++ suffix) = storageRoot home ++ suffix
    ∧ translatePath home "~S1".data = storageRoot home
    ∧ translateDisp home ("~S1".data ++ suffix) = translatePath home ("~S1".data ++ suffix) := by
  refine ⟨rfl, by simp [translatePath, storageRoot], ?_⟩
  unfold translateDisp translatePath
  by_cases h : "~S1".data ++ suffix = "~S1".data
  · have hs : suffix = [] := by simpa using h
    subst hs
    simp
  · rw [if_neg h]

/-- Claim C3: an upload whose source name does not end in the owned
extension `.pdf` is answered with the validation error and leaves the
filesystem untouched — the check precedes directory creation and the move. -/
theorem uploadf_wrong_ext_rejected (fs : Entry) (home filename dest : Str)
    (h : ¬ (".pdf".data <:+ filename)) :
    upload_file fs home filename dest = (fs, [errNotPdf]) := by
  have hx : extOk filename = false := by
    cases hy : extOk filename
    · rfl
    · exact absurd (extOk_suffix filename hy) h
  unfold upload_file
  rw [hx]
  simp

/-- Witness for C3 at a `.txt` source. -/
theorem uploadf_wrong_ext_rejected_witness :
    ¬ (".pdf".data <:+ "/tmp/notes.txt".data)
    ∧ upload_file demoFS demoHome "/tmp/notes.txt".data "~S1/docs".data = (demoFS, [errNotPdf]) :=
  ⟨by decide,
   uploadf_wrong_ext_rejected demoFS demoHome "/tmp/notes.txt".data "~S1/docs".data (by decide)⟩

/-- Claim C9: a `dispfnames` request whose translated path is missing or
is a regular file gets the zero-byte reply and return code 0 — success,
never an error reply. -/
theorem dispfnames_missing_dir_empty (fs : Entry) (home pathname : Str)
    (h : lookupE fs (splitSlash (translateDisp home pathname)) = none
       ∨ ∃ c, lookupE fs (splitSlash (translateDisp home pathname)) = some (Entry.file c)) :
    display_filenames fs home pathname = ([], 0) := by
  unfold display_filenames
  rcases h with h | ⟨c, h⟩ <;> rw [h]

/-- Witness for C9 at a path absent from the tree. -/
theorem dispfnames_missing_dir_empty_witness :
    display_filenames demoFS demoHome "~S1/nothing".data = ([], 0) :=
  dispfnames_missing_dir_empty demoFS demoHome "~S1/nothing".data (Or.inl rfl)

/-- Claim C4 counterexample: `~S1/docs` does not resolve to a regular file
in `demoFS2` (it is a directory there), yet `downlf ~S1/docs` sends a size
frame (the directory's `st_size`) before failing — the claim's "no size
frame for any request not resolving to an existing file" is false on the
code. -/
theorem downlf_nonfile_sends_frame :
    isFileAt demoFS2 (splitSlash (translatePath demoHome "~S1/docs".data)) = false
    ∧ download_file demoFS2 demoHome "~S1/docs".data 4096 none []
        = [Out.size 4096, errTransfer]
    ∧ hasSizeFrame [Out.size 4096, errTransfer] = true :=
  ⟨rfl, rfl, rfl⟩

/-- Claim C4 (amended): when the VirtualPath resolves to nothing at all
(`stat` fails), the reply is exactly the not-found error text — no size
frame and no payload bytes on that connection. -/
theorem downlf_absent_error_only (fs : Entry) (home vpath : Str) (dirSz : Nat)
    (trunc : Option Nat) (ws : List (Option Nat))
    (h : lookupE fs (splitSlash (translatePath home vpath)) = none) :
    download_file fs home vpath dirSz trunc ws = [errNotFound] := by
  unfold download_file
  rw [h]

/-- Witness for the amended C4 at an absent path. -/
theorem downlf_absent_error_only_witness :
    download_file demoFS demoHome "~S1/nope.pdf".data 4096 none [] = [errNotFound] :=
  downlf_absent_error_only demoFS demoHome "~S1/nope.pdf".data 4096 none [] rfl

/-- Claim C5 counterexample: with the archive created and a `sendfile`
failure mid-transfer, `download_tar` returns with `/tmp/pdffiles.tar`
still present — the claimed cleanup on every failure path is false. -/
theorem downltar_failure_leaves_tmp :
    (download_tar true true false [7]).1 = true
    ∧ (download_tar true true false [7]).2 = [Out.size 1, errTransfer] :=
  ⟨rfl, rfl⟩

/-- Claim C5 (amended): the transient archive is deleted on the successful
path, but a failure after its creation — `open` failing, or `sendfile`
failing with bytes still to send — returns with the archive left on disk. -/
theorem downltar_cleanup_success_only (tarBytes : List Nat) :
    (download_tar true true true tarBytes).1 = false
    ∧ (∀ sendOk, (download_tar true false sendOk tarBytes).1 = true)
    ∧ (tarBytes ≠ [] → (download_tar true true false tarBytes).1 = true) := by
  refine ⟨?_, fun sendOk => rfl, fun h => ?_⟩
  · unfold download_tar
    by_cases hb : tarBytes = [] <;> simp [hb]
  · unfold download_tar
    simp [h]

/-- Witness for the amended C5 with a one-byte archive. -/
theorem downltar_cleanup_success_only_witness :
    (download_tar true true true [7]).1 = false
    ∧ ([7] ≠ ([] : List Nat) ∧ (download_tar true true false [7]).1 = true) :=
  ⟨(downltar_cleanup_success_only [7]).1,
   by decide, (downltar_cleanup_success_only [7]).2.2 (by decide)⟩

/-! ### Lemmas about the directory materializer (claim C7) -/

theorem lookupE_nil (e : Entry) : lookupE e [] = some e := by cases e <;> rfl

theorem lookupE_dir (cs : Entries) (s : Str) (p : List Str) :
    lookupE (Entry.dir cs) (s :: p) =
      (match findE cs s with
       | some e => lookupE e p
       | none => none) := rfl

theorem mkdirE_nil (e : Entry) : mkdirE e [] = some e := by cases e <;> rfl

theorem mkdirE_found_nil (cs : Entries) (s : Str) (child : Entry)
    (hf : findE cs s = some child) : mkdirE (Entry.dir cs) [s] = some (Entry.dir cs) := by
  simp [mkdirE, hf]

theorem mkdirE_found_cons (cs : Entries) (s : Str) (child : Entry) (r : Str) (rs : List Str)
    (hf : findE cs s = some child) :
    mkdirE (Entry.dir cs) (s :: r :: rs) =
      (match mkdirE child (r :: rs) with
       | some child2 => some (Entry.dir (replaceE cs s child2))
       | none => none) := by
  simp [mkdirE, hf]

theorem mkdirE_none_nil (cs : Entries) (s : Str) (hf : findE cs s = none) :
    mkdirE (Entry.dir cs) [s] = some (Entry.dir (appendE cs s (Entry.dir Entries.nil))) := by
  simp [mkdirE, hf]

theorem mkdirE_none_cons (cs : Entries) (s : Str) (r : Str) (rs : List Str)
    (hf : findE cs s = none) : mkdirE (Entry.dir cs) (s :: r :: rs) = none := by
  simp [mkdirE, hf]

theorem findE_replaceE_self : ∀ (cs : Entries) (s : Str) (x c : Entry),
    findE cs s = some c → findE (replaceE cs s x) s = some x
  | Entries.nil, s, x, c, h => by simp [findE] at h
  | Entries.cons n e rest, s, x, c, h => by
      by_cases hn : n = s
      · simp [findE, replaceE, hn]
      · simp only [findE, replaceE, if_neg hn] at h ⊢
        exact findE_replaceE_self rest s x c h

theorem findE_replaceE_ne : ∀ (cs : Entries) (s t : Str) (x : Entry), t ≠ s →
    findE (replaceE cs s x) t = findE cs t
  | Entries.nil, _, _, _, _ => by simp [findE, replaceE]
  | Entries.cons n e rest, s, t, x, ht => by
      by_cases hn : n = s
      · subst hn
        simp [replaceE, findE, Ne.symm ht]
      · by_cases hnt : n = t
        · simp [replaceE, if_neg hn, findE, hnt, ht]
        · simp [replaceE, if_neg hn, findE, hnt, findE_replaceE_ne rest s t x ht]

theorem replaceE_self_id : ∀ (cs : Entries) (s : Str) (c : Entry),
    findE cs s = some c → replaceE cs s c = cs
  | Entries.nil, _, _, _ => rfl
  | Entries.cons n e rest, s, c, h => by
      by_cases hn : n = s
      · simp only [findE, if_pos hn] at h
        cases h
        simp [replaceE, hn]
      · simp only [findE, if_neg hn] at h
        simp only [replaceE, if_neg hn]
        rw [replaceE_self_id rest s c h]

theorem findE_appendE_none : ∀ (cs : Entries) (s : Str) (x : Entry),
    findE cs s = none → findE (appendE cs s x) s = some x
  | Entries.nil, s, x, _ => by simp [findE, appendE]
  | Entries.cons n e rest, s, x, h => by
      by_cases hn : n = s
      · simp [findE, if_pos hn] at h
      · simp only [findE, if_neg hn] at h
        simp only [appendE, findE, if_neg hn]
        exact findE_appendE_none rest s x h

theorem findE_appendE_found : ∀ (cs : Entries) (s t : Str) (x y : Entry),
    findE cs t = some y → findE (appendE cs s x) t = some y
  | Entries.nil, s, t, x, y, h => by simp [findE] at h
  | Entries.cons n e rest, s, t, x, y, h => by
      by_cases hn : n = t
      · simp only [findE, if_pos hn] at h
        simp [appendE, findE, if_pos hn, h]
      · simp only [findE, if_neg hn] at h
        simp only [appendE, findE, if_neg hn]
        exact findE_appendE_found rest s t x y h

/-- A path that already exists makes `mkdir` a successful no-op
(`EEXIST`, which `create_directory_tree` treats as success). -/
theorem mkdir_noop : ∀ (p : List Str) (e x : Entry),
    lookupE e p = some x → mkdirE e p = some e
  | [], e, _, _ => mkdirE_nil e
  | s :: rest, e, x, h => by
      cases e with
      | file c => simp [lookupE] at h
      | dir cs =>
          cases hf : findE cs s with
          | none => simp [lookupE_dir, hf] at h
          | some child =>
              simp only [lookupE_dir, hf] at h
              cases rest with
              | nil => exact mkdirE_found_nil cs s child hf
              | cons r rs =>
                  rw [mkdirE_found_cons cs s child r rs hf,
                    mkdir_noop (r :: rs) child x h]
                  simp [replaceE_self_id cs s child hf]

/-- After a successful `mkdir`, the created (or already present) path
exists in the result. -/
theorem mkdir_exists : ∀ (p : List Str) (e e2 : Entry),
    mkdirE e p = some e2 → ∃ y, lookupE e2 p = some y
  | [], e, e2, h => by
      rw [mkdirE_nil] at h
      cases h
      exact ⟨e, lookupE_nil e⟩
  | s :: rest, e, e2, h => by
      cases e with
      | file c => simp [mkdirE] at h
      | dir cs =>
          cases hf : findE cs s with
          | some child =>
              cases rest with
              | nil =>
                  rw [mkdirE_found_nil cs s child hf] at h
                  cases h
                  exact ⟨child, by simp [lookupE_dir, hf, lookupE_nil]⟩
              | cons r rs =>
                  rw [mkdirE_found_cons cs s child r rs hf] at h
                  cases hm : mkdirE child (r :: rs) with
                  | none => rw [hm] at h; cases h
                  | some child2 =>
                      rw [hm] at h
                      cases h
                      obtain ⟨y, hy⟩ := mkdir_exists (r :: rs) child child2 hm
                      exact ⟨y, by
                        simp [lookupE_dir, findE_replaceE_self cs s child2 child hf, hy]⟩
          | none =>
              cases rest with
              | nil =>
                  rw [mkdirE_none_nil cs s hf] at h
                  cases h
                  exact ⟨Entry.dir Entries.nil,
                    by simp [lookupE_dir, findE_appendE_none cs s _ hf, lookupE_nil]⟩
              | cons r rs => rw [mkdirE_none_cons cs s r rs hf] at h; cases h

/-- A successful `mkdir` never removes an existing path. -/
theorem mkdir_preserves : ∀ (p : List Str) (e e2 : Entry) (q : List Str) (x : Entry),
    mkdirE e p = some e2 → lookupE e q = some x → ∃ y, lookupE e2 q = some y
  | [], e, e2, q, x, h, hq => by
      rw [mkdirE_nil] at h
      cases h
      exact ⟨x, hq⟩
  | s :: rest, e, e2, q, x, h, hq => by
      cases e with
      | file c => simp [mkdirE] at h
      | dir cs =>
          cases hf : findE cs s with
          | some child =>
              cases rest with
              | nil =>
                  rw [mkdirE_found_nil cs s child hf] at h
                  cases h
                  exact ⟨x, hq⟩
              | cons r rs =>
                  rw [mkdirE_found_cons cs s child r rs hf] at h
                  cases hm : mkdirE child (r :: rs) with
                  | none => rw [hm] at h; cases h
                  | some child2 =>
                      rw [hm] at h
                      cases h
                      cases q with
                      | nil => exact ⟨_, lookupE_nil _⟩
                      | cons t qr =>
                          cases hft : findE cs t with
                          | none => simp [lookupE_dir, hft] at hq
                          | some y0 =>
                              simp only [lookupE_dir, hft] at hq
                              by_cases hts : t = s
                              · subst hts
                                have hy0 : y0 = child := by
                                  rw [hft] at hf
                                  cases hf
                                  rfl
                                subst hy0
                                obtain ⟨y, hy⟩ :=
                                  mkdir_preserves (r :: rs) y0 child2 qr x hm hq
                                exact ⟨y, by
                                  simp [lookupE_dir,
                                    findE_replaceE_self cs t child2 y0 hft, hy]⟩
                              · exact ⟨x, by
                                  simp [lookupE_dir,
                                    findE_replaceE_ne cs s t child2 hts, hft, hq]⟩
          | none =>
              cases rest with
              | nil =>
                  rw [mkdirE_none_nil cs s hf] at h
                  cases h
                  cases q with
                  | nil => exact ⟨_, lookupE_nil _⟩
                  | cons t qr =>
                      cases hft : findE cs t with
                      | none => simp [lookupE_dir, hft] at hq
                      | some y0 =>
                          simp only [lookupE_dir, hft] at hq
                          exact ⟨x, by
                            simp [lookupE_dir, findE_appendE_found cs s t _ y0 hft, hq]⟩
              | cons r rs => rw [mkdirE_none_cons cs s r rs hf] at h; cases h

/-- A successful `mkdir` keeps every existing regular file in place with
its content unchanged. -/
theorem mkdir_preserves_file : ∀ (p : List Str) (e e2 : Entry) (q : List Str) (c : List Nat),
    mkdirE e p = some e2 → lookupE e q = some (Entry.file c) →
    lookupE e2 q = some (Entry.file c)
  | [], e, e2, q, c, h, hq => by
      rw [mkdirE_nil] at h
      cases h
      exact hq
  | s :: rest, e, e2, q, c, h, hq => by
      cases e with
      | file c0 => simp [mkdirE] at h
      | dir cs =>
          cases hf : findE cs s with
          | some child =>
              cases rest with
              | nil =>
                  rw [mkdirE_found_nil cs s child hf] at h
                  cases h
                  exact hq
              | cons r rs =>
                  rw [mkdirE_found_cons cs s child r rs hf] at h
                  cases hm : mkdirE child (r :: rs) with
                  | none => rw [hm] at h; cases h
                  | some child2 =>
                      rw [hm] at h
                      cases h
                      cases q with
                      | nil => rw [lookupE_nil] at hq; cases hq
                      | cons t qr =>
                          cases hft : findE cs t with
                          | none => simp [lookupE_dir, hft] at hq
                          | some y0 =>
                              simp only [lookupE_dir, hft] at hq
                              by_cases hts : t = s
                              · subst hts
                                have hy0 : y0 = child := by
                                  rw [hft] at hf
                                  cases hf
                                  rfl
                                subst hy0
                                have hrec :=
                                  mkdir_preserves_file (r :: rs) y0 child2 qr c hm hq
                                simp [lookupE_dir,
                                  findE_replaceE_self cs t child2 y0 hft, hrec]
                              · simp [lookupE_dir,
                                  findE_replaceE_ne cs s t child2 hts, hft, hq]
          | none =>
              cases rest with
              | nil =>
                  rw [mkdirE_none_nil cs s hf] at h
                  cases h
                  cases q with
                  | nil => rw [lookupE_nil] at hq; cases hq
                  | cons t qr =>
                      cases hft : findE cs t with
                      | none => simp [lookupE_dir, hft] at hq
                      | some y0 =>
                          simp only [lookupE_dir, hft] at hq
                          simp [lookupE_dir, findE_appendE_found cs s t _ y0 hft, hq]
              | cons r rs => rw [mkdirE_none_cons cs s r rs hf] at h; cases h

/-- The materializer's loop never removes an existing path, even when it
aborts partway. -/
theorem cdt_preserves : ∀ (ps : List (List Str)) (e : Entry) (q : List Str) (x : Entry),
    lookupE e q = some x → ∃ y, lookupE (cdt e ps).1 q = some y
  | [], e, q, x, hq => ⟨x, hq⟩
  | p :: ps, e, q, x, hq => by
      cases hm : mkdirE e p with
      | none => simp only [cdt, hm]; exact ⟨x, hq⟩
      | some e2 =>
          simp only [cdt, hm]
          obtain ⟨y, hy⟩ := mkdir_preserves p e e2 q x hm hq
          exact cdt_preserves ps e2 q y hy

/-- The materializer's loop keeps every existing regular file unchanged. -/
theorem cdt_preserves_file : ∀ (ps : List (List Str)) (e : Entry) (q : List Str) (c : List Nat),
    lookupE e q = some (Entry.file c) → lookupE (cdt e ps).1 q = some (Entry.file c)
  | [], e, q, c, hq => hq
  | p :: ps, e, q, c, hq => by
      cases hm : mkdirE e p with
      | none => simp only [cdt, hm]; exact hq
      | some e2 =>
          simp only [cdt, hm]
          exact cdt_preserves_file ps e2 q c (mkdir_preserves_file p e e2 q c hm hq)

/-- Running the materializer's loop a second time changes nothing: every
prefix it created still exists, so each `mkdir` is an `EEXIST` no-op, and
a failing prefix fails identically again. -/
theorem cdt_idem : ∀ (ps : List (List Str)) (e : Entry), cdt (cdt e ps).1 ps = cdt e ps
  | [], e => rfl
  | p :: ps, e => by
      cases hm : mkdirE e p with
      | none => simp [cdt, hm]
      | some e2 =>
          simp only [cdt, hm]
          obtain ⟨y1, hy1⟩ := mkdir_exists p e e2 hm
          obtain ⟨y2, hy2⟩ := cdt_preserves ps e2 p y1 hy1
          have hnoop : mkdirE (cdt e2 ps).1 p = some (cdt e2 ps).1 :=
            mkdir_noop p (cdt e2 ps).1 y2 hy2
          simp only [hnoop]
          exact cdt_idem ps e2

/-- Claim C7: `create_directory_tree` is idempotent — applying it twice to
the same path yields the same tree and the same result as applying it
once — and a path segment that already exists is a successful no-op for
the underlying `mkdir` (`EEXIST` treated as success); any other `mkdir`
failure aborts the loop with failure. -/
theorem create_directory_tree_idempotent (fs : Entry) (path : Str) :
    create_directory_tree (create_directory_tree fs path).1 path
      = create_directory_tree fs path
    ∧ (∀ p x, lookupE fs p = some x → mkdirE fs p = some fs) :=
  ⟨cdt_idem (prefixesOf (splitSlash path)) fs, fun p x h => mkdir_noop p fs x h⟩

/-- Witness for C7 on a concrete tree and path. -/
theorem create_directory_tree_idempotent_witness :
    create_directory_tree (create_directory_tree demoFS "/home/u/S2/docs".data).1
        "/home/u/S2/docs".data
      = create_directory_tree demoFS "/home/u/S2/docs".data
    ∧ mkdirE demoFS ["tmp".data] = some demoFS :=
  ⟨(create_directory_tree_idempotent demoFS "/home/u/S2/docs".data).1,
   (create_directory_tree_idempotent demoFS "/home/u/S2/docs".data).2 ["tmp".data]
     (Entry.dir (Entries.cons "report.pdf".data (Entry.file [37, 80, 68, 70]) Entries.nil))
     rfl⟩

/-! ### Lemmas about the listing engine (claims C8 and C1) -/

/-- Every line the traversal emits ends in the owned extension: an emitted
line is the marker prefix plus a relative path ending in a file name that
passed the `.pdf` filter. -/
theorem listLinesC_pdf : ∀ (cs : Entries) (rel l : Str),
    l ∈ listLinesC cs rel → ".pdf".data <:+ l
  | Entries.nil, rel, l, h => by simp [listLinesC] at h
  | Entries.cons name (Entry.file c) rest, rel, l, h => by
      simp only [listLinesC, entryOut] at h
      cases hx : extOk name with
      | false =>
          simp only [hx, Bool.false_eq_true, if_false, List.nil_append] at h
          exact listLinesC_pdf rest rel l h
      | true =>
          simp only [hx, if_true, List.singleton_append, List.mem_cons] at h
          rcases h with h | h
          · subst h
            have h3 : ".pdf".data <:+ name := extOk_suffix name hx
            have h4 : name <:+ newRel rel name := by
              unfold newRel
              by_cases hr : rel = []
              · simp [hr]
              · rw [if_neg hr]
                exact (List.suffix_cons '/' name).trans
                  (List.suffix_append rel ('/' :: name))
            exact h3.trans (h4.trans (List.suffix_append "~S1/".data (newRel rel name)))
          · exact listLinesC_pdf rest rel l h
  | Entries.cons name (Entry.dir cs2) rest, rel, l, h => by
      simp only [listLinesC, entryOut] at h
      rcases List.mem_append.mp h with h1 | h2
      · exact listLinesC_pdf cs2 (newRel rel name) l h1
      · exact listLinesC_pdf rest rel l h2

/-- A subtree without any matching file contributes no lines. -/
theorem listLinesC_nil_of_noPdf : ∀ (cs : Entries), hasPdfC cs = false →
    ∀ rel, listLinesC cs rel = []
  | Entries.nil, _, rel => by simp [listLinesC]
  | Entries.cons name (Entry.file c) rest, h, rel => by
      simp only [hasPdfC, Bool.or_eq_false_iff] at h
      obtain ⟨h1, h2⟩ := h
      simp [listLinesC, entryOut, h1, listLinesC_nil_of_noPdf rest h2 rel]
  | Entries.cons name (Entry.dir cs2) rest, h, rel => by
      simp only [hasPdfC, Bool.or_eq_false_iff] at h
      obtain ⟨h1, h2⟩ := h
      simp [listLinesC, entryOut, listLinesC_nil_of_noPdf cs2 h1 (newRel rel name),
        listLinesC_nil_of_noPdf rest h2 rel]

/-- The traversal includes the contribution of the child `findE` returns. -/
theorem entryOut_sub_mem : ∀ (cs : Entries) (s : Str) (e : Entry),
    findE cs s = some e → ∀ (rel l : Str), l ∈ entryOut s e rel → l ∈ listLinesC cs rel
  | Entries.nil, s, e, h, _, _, _ => by simp [findE] at h
  | Entries.cons n e1 rest, s, e, h, rel, l, hl => by
      by_cases hn : n = s
      · simp only [findE, if_pos hn] at h
        cases h
        subst hn
        simp only [listLinesC]
        exact List.mem_append_left _ hl
      · simp only [findE, if_neg hn] at h
        simp only [listLinesC]
        exact List.mem_append_right _ (entryOut_sub_mem rest s e h rel l hl)

/-- A matching regular file reachable from the traversal root at relative
segment path `dsegs ++ [fname]` produces its line in the listing, the line
being the marker plus the path relative to the traversal root. -/
theorem listLines_mem : ∀ (dsegs : List Str) (fname : Str) (cs : Entries)
    (c : List Nat) (rel : Str),
    lookupE (Entry.dir cs) (dsegs ++ [fname]) = some (Entry.file c) →
    extOk fname = true →
    lineOf (List.foldl newRel rel (dsegs ++ [fname])) ∈ listLinesC cs rel
  | [], fname, cs, c, rel, hlk, hx => by
      cases hf : findE cs fname with
      | none => simp [List.nil_append, lookupE_dir, hf] at hlk
      | some y =>
          simp only [List.nil_append, lookupE_dir, hf, lookupE_nil] at hlk
          cases hlk
          apply entryOut_sub_mem cs fname (Entry.file c) hf
          simp [entryOut, hx, List.foldl]
  | d :: ds, fname, cs, c, rel, hlk, hx => by
      cases hf : findE cs d with
      | none => simp [List.cons_append, lookupE_dir, hf] at hlk
      | some child =>
          simp only [List.cons_append, lookupE_dir, hf] at hlk
          cases child with
          | file c2 => cases ds <;> simp [lookupE] at hlk
          | dir cs2 =>
              have hrec := listLines_mem ds fname cs2 c (newRel rel d) hlk hx
              apply entryOut_sub_mem cs d (Entry.dir cs2) hf
              simpa [entryOut, List.foldl] using hrec

/-- Claim C8: every line a `dispfnames` reply contains ends in the node's
owned `.pdf` extension, and a resolved directory whose subtree holds no
matching file yields the empty reply with the success return code. -/
theorem dispfnames_only_matching (fs : Entry) (home pathname : Str) :
    (∀ l, l ∈ dispLines fs home pathname → ".pdf".data <:+ l)
    ∧ (∀ cs, lookupE fs (splitSlash (translateDisp home pathname)) = some (Entry.dir cs) →
        hasPdfC cs = false → display_filenames fs home pathname = ([], 0)) := by
  constructor
  · intro l hl
    cases hq : lookupE fs (splitSlash (translateDisp home pathname)) with
    | none => simp [dispLines, hq] at hl
    | some e =>
        cases e with
        | file c => simp [dispLines, hq] at hl
        | dir cs =>
            simp only [dispLines, hq] at hl
            exact listLinesC_pdf cs [] l hl
  · intro cs hq hno
    simp only [display_filenames, hq]
    rw [listLinesC_nil_of_noPdf cs hno []]
    simp [joinNL]

/-- Witness for C8: the line of the uploaded PDF ends in `.pdf`, and the
`.txt`-only directory produces the empty success reply. -/
theorem dispfnames_only_matching_witness :
    ".pdf".data <:+ "~S1/report.pdf".data
    ∧ display_filenames demoTxtFS demoHome "~S1/docs".data = ([], 0) :=
  ⟨(dispfnames_only_matching demoFS1 demoHome "~S1/docs".data).1 "~S1/report.pdf".data
     (by decide),
   (dispfnames_only_matching demoTxtFS demoHome "~S1/docs".data).2 demoTxtDocs rfl rfl⟩

/-- Claim C1 counterexample: after `uploadf /tmp/report.pdf ~S1/docs`
succeeds, `dispfnames ~S1/docs` replies `~S1/report.pdf\n` — the marker
plus the path relative to the requested directory — not the claimed
`~S1/docs/report.pdf\n` (marker plus path relative to the storage root). -/
theorem dispfnames_scenario_counterexample :
    (upload_file demoFS demoHome "/tmp/report.pdf".data "~S1/docs".data).2 = [okUpload]
    ∧ (display_filenames demoFS1 demoHome "~S1/docs".data).1 = "~S1/report.pdf\n".data
    ∧ "~S1/report.pdf\n".data ≠ "~S1/docs/report.pdf\n".data :=
  ⟨rfl, rfl, by decide⟩

/-- Claim C1 (amended): for every matching file under the requested
directory, the listing emits one line equal to the root marker followed by
`/` and the file's path relative to the *requested directory* (the
traversal restarts its relative-path accumulator at the request root). -/
theorem dispfnames_emits_request_relative_line (fs : Entry) (home pathname : Str)
    (cs : Entries) (dsegs : List Str) (fname : Str) (c : List Nat)
    (hdir : lookupE fs (splitSlash (translateDisp home pathname)) = some (Entry.dir cs))
    (hfile : lookupE (Entry.dir cs) (dsegs ++ [fname]) = some (Entry.file c))
    (hpdf : extOk fname = true) :
    lineOf (List.foldl newRel [] (dsegs ++ [fname])) ∈ dispLines fs home pathname := by
  simp only [dispLines, hdir]
  exact listLines_mem dsegs fname cs c [] hfile hpdf

/-- Witness for the amended C1 on the concrete post-upload state. -/
theorem dispfnames_emits_request_relative_line_witness :
    "~S1/report.pdf".data ∈ dispLines demoFS1 demoHome "~S1/docs".data :=
  dispfnames_emits_request_relative_line demoFS1 demoHome "~S1/docs".data
    (Entries.cons "report.pdf".data (Entry.file [37, 80, 68, 70]) Entries.nil)
    [] "report.pdf".data [37, 80, 68, 70] rfl rfl rfl

/-- One unfolding step of the send loop at positive fuel. -/
theorem sendLoopF_succ (fuel : Nat) (avail : List Nat) (rem : Nat) (ws : List (Option Nat)) :
    sendLoopF (fuel + 1) avail rem ws =
      if rem = 0 then []
      else
        if (avail.take (min rem 1024)).length = 0 then [errTransfer]
        else
          match ws with
          | some m :: wrest =>
              if m < (avail.take (min rem 1024)).length then
                [Out.bytes ((avail.take (min rem 1024)).take m), errTransfer]
              else
                Out.bytes (avail.take (min rem 1024)) ::
                  sendLoopF fuel (avail.drop (avail.take (min rem 1024)).length)
                    (rem - (avail.take (min rem 1024)).length) wrest
          | none :: wrest =>
              Out.bytes (avail.take (min rem 1024)) ::
                sendLoopF fuel (avail.drop (avail.take (min rem 1024)).length)
                  (rem - (avail.take (min rem 1024)).length) wrest
          | [] =>
              Out.bytes (avail.take (min rem 1024)) ::
                sendLoopF fuel (avail.drop (avail.take (min rem 1024)).length)
                  (rem - (avail.take (min rem 1024)).length) [] := rfl

theorem allBytes_cons_bytes (b : List Nat) (rest : List Out) :
    allBytes (Out.bytes b :: rest) = allBytes rest := by
  simp [allBytes]

theorem allBytes_single_bytes (b : List Nat) : allBytes [Out.bytes b] = true := by
  simp [allBytes]

/-! ### Lemmas about the transfer loop (claims C10 and C2) -/

/-- The send loop either delivers exactly the announced number of payload
bytes in `Out.bytes` chunks, or emits an all-payload prefix strictly short
of the announcement followed by the transfer-failure reply. -/
theorem sendLoopF_shape : ∀ (fuel : Nat) (avail : List Nat) (rem : Nat)
    (ws : List (Option Nat)), rem ≤ fuel →
    (allBytes (sendLoopF fuel avail rem ws) = true
      ∧ payloadLen (sendLoopF fuel avail rem ws) = rem)
    ∨ (∃ pre, sendLoopF fuel avail rem ws = pre ++ [errTransfer]
        ∧ allBytes pre = true ∧ payloadLen pre < rem)
  | 0, avail, rem, ws, hle => by
      have h0 : rem = 0 := Nat.le_zero.mp hle
      subst h0
      left
      simp [sendLoopF, allBytes, payloadLen]
  | fuel + 1, avail, rem, ws, hle => by
      by_cases h0 : rem = 0
      · subst h0
        left
        simp [sendLoopF, allBytes, payloadLen]
      · have hrpos : 0 < rem := Nat.pos_of_ne_zero h0
        have hchle : (avail.take (min rem 1024)).length ≤ rem :=
          le_trans (List.length_take_le (min rem 1024) avail) (Nat.min_le_left rem 1024)
        by_cases hch : (avail.take (min rem 1024)).length = 0
        · simp only [sendLoopF_succ, if_neg h0, if_pos hch]
          right
          exact ⟨[], by simp [allBytes, payloadLen, hrpos]⟩
        · have hchpos : 0 < (avail.take (min rem 1024)).length := Nat.pos_of_ne_zero hch
          have hfuel : rem - (avail.take (min rem 1024)).length ≤ fuel := by omega
          cases ws with
          | nil =>
              simp only [sendLoopF_succ, if_neg h0, if_neg hch]
              rcases sendLoopF_shape fuel (avail.drop (avail.take (min rem 1024)).length)
                  (rem - (avail.take (min rem 1024)).length) [] hfuel with
                ⟨ha, hp⟩ | ⟨pre, he, ha, hp⟩
              · left
                refine ⟨by rw [allBytes_cons_bytes]; exact ha, ?_⟩
                simp only [payloadLen]
                omega
              · right
                refine ⟨Out.bytes (avail.take (min rem 1024)) :: pre, ?_,
                  by rw [allBytes_cons_bytes]; exact ha, ?_⟩
                · rw [List.cons_append, he]
                · simp only [payloadLen]
                  omega
          | cons w wrest =>
              cases w with
              | none =>
                  simp only [sendLoopF_succ, if_neg h0, if_neg hch]
                  rcases sendLoopF_shape fuel (avail.drop (avail.take (min rem 1024)).length)
                      (rem - (avail.take (min rem 1024)).length) wrest hfuel with
                    ⟨ha, hp⟩ | ⟨pre, he, ha, hp⟩
                  · left
                    refine ⟨by rw [allBytes_cons_bytes]; exact ha, ?_⟩
                    simp only [payloadLen]
                    omega
                  · right
                    refine ⟨Out.bytes (avail.take (min rem 1024)) :: pre, ?_,
                      by rw [allBytes_cons_bytes]; exact ha, ?_⟩
                    · rw [List.cons_append, he]
                    · simp only [payloadLen]
                      omega
              | some m =>
                  by_cases hm : m < (avail.take (min rem 1024)).length
                  · simp only [sendLoopF_succ, if_neg h0, if_neg hch, if_pos hm]
                    right
                    refine ⟨[Out.bytes ((avail.take (min rem 1024)).take m)], rfl,
                      allBytes_single_bytes _, ?_⟩
                    have hmt : ((avail.take (min rem 1024)).take m).length ≤ m :=
                      List.length_take_le m (avail.take (min rem 1024))
                    simp only [payloadLen]
                    omega
                  · simp only [sendLoopF_succ, if_neg h0, if_neg hch, if_neg hm]
                    rcases sendLoopF_shape fuel (avail.drop (avail.take (min rem 1024)).length)
                        (rem - (avail.take (min rem 1024)).length) wrest hfuel with
                      ⟨ha, hp⟩ | ⟨pre, he, ha, hp⟩
                    · left
                      refine ⟨by rw [allBytes_cons_bytes]; exact ha, ?_⟩
                      simp only [payloadLen]
                      omega
                    · right
                      refine ⟨Out.bytes (avail.take (min rem 1024)) :: pre, ?_,
                        by rw [allBytes_cons_bytes]; exact ha, ?_⟩
                      · rw [List.cons_append, he]
                      · simp only [payloadLen]
                        omega

/-- Claim C10: downloading an existing file always opens with the size
frame; then either the payload chunks alone carry exactly the announced
byte count, or — on any mid-stream read failure or short socket write —
the chunks sent so far (strictly fewer bytes than announced) are followed
by the `ERROR: File transfer failed` text on the same connection.  A lone
well-formed frame matching the announced size is never produced by a
failing transfer. -/
theorem downlf_midstream_failure_shape (fs : Entry) (home vpath : Str) (dirSz : Nat)
    (trunc : Option Nat) (ws : List (Option Nat)) (c : List Nat)
    (h : lookupE fs (splitSlash (translatePath home vpath)) = some (Entry.file c)) :
    ∃ rest, download_file fs home vpath dirSz trunc ws = Out.size c.length :: rest
      ∧ ((allBytes rest = true ∧ payloadLen rest = c.length)
         ∨ ∃ pre, rest = pre ++ [errTransfer] ∧ allBytes pre = true
             ∧ payloadLen pre < c.length) := by
  simp only [download_file, h]
  exact ⟨_, rfl, sendLoopF_shape c.length _ c.length ws (le_refl _)⟩

/-- Witness for C10: a short write of 2 bytes during the 4-byte download. -/
theorem downlf_midstream_failure_shape_witness :
    ∃ rest, download_file demoFS1 demoHome "~S1/docs/report.pdf".data 4096 none [some 2]
        = Out.size 4 :: rest
      ∧ ((allBytes rest = true ∧ payloadLen rest = 4)
         ∨ ∃ pre, rest = pre ++ [errTransfer] ∧ allBytes pre = true ∧ payloadLen pre < 4) :=
  downlf_midstream_failure_shape demoFS1 demoHome "~S1/docs/report.pdf".data 4096 none
    [some 2] [37, 80, 68, 70] rfl

/-! ### The clean transfer and the chunking of a byte list (claim C2) -/

theorem chunksOfF_succ (fuel : Nat) (l : List Nat) :
    chunksOfF (fuel + 1) l =
      if l = [] then [] else l.take 1024 :: chunksOfF fuel (l.drop 1024) := rfl

theorem chunksOfF_nil : ∀ (fuel : Nat), chunksOfF fuel [] = []
  | 0 => rfl
  | _ + 1 => rfl

theorem sendLoopF_zero_rem : ∀ (fuel : Nat) (avail : List Nat) (ws : List (Option Nat)),
    sendLoopF fuel avail 0 ws = []
  | 0, _, _ => rfl
  | _ + 1, _, _ => rfl

/-- Concatenating the 1024-byte chunks gives back the original bytes. -/
theorem chunksOfF_join : ∀ (fuel : Nat) (l : List Nat), l.length ≤ fuel →
    (chunksOfF fuel l).flatten = l
  | 0, l, h => by
      have hl : l = [] := List.eq_nil_of_length_eq_zero (Nat.le_zero.mp h)
      subst hl
      rfl
  | fuel + 1, l, h => by
      by_cases hl : l = []
      · subst hl
        rfl
      · rw [chunksOfF_succ, if_neg hl]
        have hlen : (l.drop 1024).length ≤ fuel := by
          have := List.length_drop 1024 l
          have hpos : 0 < l.length := List.length_pos.mpr hl
          omega
        rw [List.flatten_cons, chunksOfF_join fuel (l.drop 1024) hlen, List.take_append_drop]

/-- With every socket write accepted and the file intact, the send loop
emits exactly the 1024-byte chunking of the file. -/
theorem sendLoopF_clean : ∀ (fuel : Nat) (avail : List Nat), avail.length ≤ fuel →
    sendLoopF fuel avail avail.length [] = (chunksOfF fuel avail).map Out.bytes
  | 0, avail, hle => by
      have hl : avail = [] := List.eq_nil_of_length_eq_zero (Nat.le_zero.mp hle)
      subst hl
      rfl
  | fuel + 1, avail, hle => by
      by_cases hl : avail = []
      · subst hl
        rfl
      · have hpos : 0 < avail.length := List.length_pos.mpr hl
        have h0 : avail.length ≠ 0 := Nat.pos_iff_ne_zero.mp hpos
        have hchlen : (avail.take (min avail.length 1024)).length = min avail.length 1024 := by
          rw [List.length_take]
          exact min_eq_left (Nat.min_le_left avail.length 1024)
        have hcond : ¬ ((avail.take (min avail.length 1024)).length = 0) := by
          rw [hchlen]
          have h1024 : (0 : Nat) < 1024 := by norm_num
          exact Nat.pos_iff_ne_zero.mp (lt_min hpos h1024)
        have htake : avail.take (min avail.length 1024) = avail.take 1024 := by
          rcases le_total avail.length 1024 with hc | hc
          · rw [min_eq_left hc, List.take_length, List.take_of_length_le hc]
          · rw [min_eq_right hc]
        simp only [sendLoopF_succ, if_neg h0, if_neg hcond, chunksOfF_succ, if_neg hl,
          List.map_cons]
        rw [hchlen, htake]
        rcases le_total avail.length 1024 with hc | hc
        · rw [min_eq_left hc, List.drop_length, Nat.sub_self, sendLoopF_zero_rem,
            List.drop_eq_nil_of_le hc, chunksOfF_nil]
          rfl
        · rw [min_eq_right hc]
          have hle2 : (avail.drop 1024).length ≤ fuel := by
            rw [List.length_drop]
            omega
          rw [← List.length_drop, sendLoopF_clean fuel (avail.drop 1024) hle2]

/-! ### Path lemmas for the upload destination (claim C2) -/

theorem splitSlashAux_append : ∀ (x : Str) (b : Str) (acc : Str),
    splitSlashAux (x ++ '/' :: b) acc = splitSlashAux x acc ++ splitSlashAux b []
  | [], b, acc => by
      by_cases ha : acc = [] <;> simp [splitSlashAux, ha]
  | c :: xs, b, acc => by
      by_cases hc : c = '/'
      · by_cases ha : acc = [] <;>
          simp [splitSlashAux, hc, ha, splitSlashAux_append xs b []]
      · simp [splitSlashAux, hc, splitSlashAux_append xs b (c :: acc)]

theorem splitSlashAux_noslash : ∀ (b : Str) (acc : Str), '/' ∉ b →
    acc.reverse ++ b ≠ [] → splitSlashAux b acc = [acc.reverse ++ b]
  | [], acc, _, hne => by
      have ha : acc ≠ [] := by
        intro h
        exact hne (by simp [h])
      simp [splitSlashAux, ha]
  | c :: bs, acc, hs, _ => by
      have hc : c ≠ '/' := by
        intro h
        exact hs (by simp [h])
      have hcs : '/' ∉ bs := fun h => hs (List.mem_cons_of_mem c h)
      have hrec := splitSlashAux_noslash bs (c :: acc) hcs (by simp)
      simp [splitSlashAux, hc, hrec]

/-- Appending a slash and a slash-free final segment appends one segment. -/
theorem splitSlash_append_seg (x b : Str) (hb : b ≠ []) (hs : '/' ∉ b) :
    splitSlash (x ++ '/' :: b) = splitSlash x ++ [b] := by
  unfold splitSlash
  rw [splitSlashAux_append, splitSlashAux_noslash b [] hs (by simpa using hb)]
  rfl

/-- The basename never contains a slash. -/
theorem basenameL_noslash (s : Str) : '/' ∉ basenameL s := by
  unfold basenameL
  intro h
  rw [List.mem_reverse] at h
  have := List.mem_takeWhile_imp h
  simp at this

/-! ### Rename places the moved entry at the destination (claim C2) -/

theorem insertP_lookup : ∀ (p : List Str) (g x g2 : Entry),
    insertP g p x = some g2 → lookupE g2 p = some x
  | [], g, x, g2, h => by
      simp only [insertP] at h
      cases h
      exact lookupE_nil x
  | [s], g, x, g2, h => by
      cases g with
      | file c => simp [insertP] at h
      | dir cs =>
          cases hf : findE cs s with
          | some y =>
              simp only [insertP, hf] at h
              cases h
              simp [lookupE_dir, findE_replaceE_self cs s x y hf, lookupE_nil]
          | none =>
              simp only [insertP, hf] at h
              cases h
              simp [lookupE_dir, findE_appendE_none cs s x hf, lookupE_nil]
  | s :: r :: rs, g, x, g2, h => by
      cases g with
      | file c => simp [insertP] at h
      | dir cs =>
          cases hf : findE cs s with
          | none => simp [insertP, hf] at h
          | some child =>
              cases hi : insertP child (r :: rs) x with
              | none => simp [insertP, hf, hi] at h
              | some child2 =>
                  simp only [insertP, hf, hi] at h
                  cases h
                  simp only [lookupE_dir, findE_replaceE_self cs s child2 child hf]
                  exact insertP_lookup (r :: rs) child x child2 hi

/-- A successful `rename` leaves the moved entry at the destination path. -/
theorem renameP_lookup (fs : Entry) (src dst : List Str) (e fs2 : Entry)
    (hsrc : lookupE fs src = some e) (h : renameP fs src dst = some fs2) :
    lookupE fs2 dst = some e := by
  cases hd : lookupE fs dst with
  | none =>
      simp only [renameP, hsrc, hd] at h
      exact insertP_lookup dst _ e fs2 h
  | some y =>
      cases y with
      | file c =>
          simp only [renameP, hsrc, hd] at h
          exact insertP_lookup dst _ e fs2 h
      | dir cs => simp [renameP, hsrc, hd] at h

/-- Translating the destination-plus-basename VirtualPath appends exactly
the basename segment to the translated destination's segments. -/
theorem download_dest_segs (home dest b : Str) (hdest : "~S1".data <+: dest)
    (hb : b ≠ []) (hs : '/' ∉ b) :
    splitSlash (translatePath home (dest ++ '/' :: b))
      = splitSlash (translatePath home dest) ++ [b] := by
  obtain ⟨suf, hsuf⟩ := hdest
  subst hsuf
  unfold translatePath
  have h3 : ("~S1".data : Str).length = 3 := rfl
  have h1 : (("~S1".data ++ suf) ++ '/' :: b).drop 3 = suf ++ '/' :: b := by
    rw [List.append_assoc, ← h3, List.drop_left]
  have h2 : ("~S1".data ++ suf).drop 3 = suf := by
    rw [← h3, List.drop_left]
  rw [h1, h2, ← List.append_assoc]
  exact splitSlash_append_seg (storageRoot home ++ suf) b hb hs

/-- Claim C2 (amended): a successful upload of a regular file `F` to a
destination VirtualPath `D` stores `F` at `D`'s local path extended with
`basename(F)`; downloading the VirtualPath `D ++ "/" ++ basename(F)` then
returns one size frame with `F`'s byte count followed by chunks whose
concatenation is byte-identical to `F`'s content. -/
theorem uploadf_downlf_roundtrip (fs : Entry) (home dest filename : Str) (c : List Nat)
    (dirSz : Nat)
    (hsrc : lookupE fs (splitSlash filename) = some (Entry.file c))
    (hdest : "~S1".data <+: dest)
    (hbase : basenameL filename ≠ [])
    (hup : (upload_file fs home filename dest).2 = [okUpload]) :
    download_file (upload_file fs home filename dest).1 home
        (dest ++ '/' :: basenameL filename) dirSz none []
      = Out.size c.length :: (chunksOf c).map Out.bytes
    ∧ (chunksOf c).flatten = c := by
  have hx : extOk filename = true := by
    cases hy : extOk filename
    · have hbad : (upload_file fs home filename dest).2 = [errNotPdf] := by
        simp [upload_file, hy]
      rw [hbad] at hup
      exact absurd hup (by decide)
    · rfl
  rcases hc : create_directory_tree fs (translatePath home dest) with ⟨fs1, ok⟩
  cases ok with
  | false =>
      have hbad : (upload_file fs home filename dest).2 = [errMkdir] := by
        simp [upload_file, hx, hc]
      rw [hbad] at hup
      exact absurd hup (by decide)
  | true =>
      cases hrn : renameP fs1 (splitSlash filename)
          (splitSlash (translatePath home dest) ++ [basenameL filename]) with
      | none =>
          have hbad : (upload_file fs home filename dest).2 = [errRename] := by
            simp [upload_file, hx, hc, hrn]
          rw [hbad] at hup
          exact absurd hup (by decide)
      | some fs2 =>
          have hfs : (upload_file fs home filename dest).1 = fs2 := by
            simp [upload_file, hx, hc, hrn]
          have hsrc1 : lookupE fs1 (splitSlash filename) = some (Entry.file c) := by
            have hp := cdt_preserves_file
              (prefixesOf (splitSlash (translatePath home dest))) fs
              (splitSlash filename) c hsrc
            rw [create_directory_tree] at hc
            rw [hc] at hp
            exact hp
          have hdst := renameP_lookup fs1 (splitSlash filename)
            (splitSlash (translatePath home dest) ++ [basenameL filename])
            (Entry.file c) fs2 hsrc1 hrn
          have hseg := download_dest_segs home dest (basenameL filename) hdest hbase
            (basenameL_noslash filename)
          rw [hfs]
          constructor
          · simp only [download_file, hseg, hdst]
            rw [show sendLoop c c.length [] = (chunksOf c).map Out.bytes from
              sendLoopF_clean c.length c (le_refl _)]
          · exact chunksOfF_join c.length c (le_refl _)

/-- Witness for the amended C2: upload to the directory `~S1/docs`, then
download `~S1/docs/report.pdf`. -/
theorem uploadf_downlf_roundtrip_witness :
    lookupE demoFS (splitSlash "/tmp/report.pdf".data) = some (Entry.file [37, 80, 68, 70])
    ∧ ("~S1".data <+: "~S1/docs".data)
    ∧ basenameL "/tmp/report.pdf".data ≠ []
    ∧ (upload_file demoFS demoHome "/tmp/report.pdf".data "~S1/docs".data).2 = [okUpload]
    ∧ download_file (upload_file demoFS demoHome "/tmp/report.pdf".data "~S1/docs".data).1
        demoHome ("~S1/docs".data ++ '/' :: basenameL "/tmp/report.pdf".data) 4096 none []
        = Out.size 4 :: (chunksOf [37, 80, 68, 70]).map Out.bytes
    ∧ (chunksOf [37, 80, 68, 70]).flatten = [37, 80, 68, 70] :=
  ⟨rfl, by decide, by decide, rfl,
   (uploadf_downlf_roundtrip demoFS demoHome "~S1/docs".data "/tmp/report.pdf".data
      [37, 80, 68, 70] 4096 rfl (by decide) (by decide) rfl).1,
   (uploadf_downlf_roundtrip demoFS demoHome "~S1/docs".data "/tmp/report.pdf".data
      [37, 80, 68, 70] 4096 rfl (by decide) (by decide) rfl).2⟩

/-- Claim C2 counterexample: the scenario `uploadf /tmp/report.pdf
~S1/docs/report.pdf` replies success but creates `<root>/docs/report.pdf`
as a *directory* (the file lands inside it, at
`<root>/docs/report.pdf/report.pdf`, because the node appends
`basename(filename)` to the destination); downloading the same
VirtualPath then frames the directory's size and fails, so the
upload-then-download round trip over the same VirtualPath does not return
the file bytes. -/
theorem uploadf_downlf_same_path_counterexample :
    (upload_file demoFS demoHome "/tmp/report.pdf".data "~S1/docs/report.pdf".data).2
        = [okUpload]
    ∧ isDirAt demoFS2 (splitSlash (translatePath demoHome "~S1/docs/report.pdf".data)) = true
    ∧ isFileAt demoFS2 (splitSlash (translatePath demoHome "~S1/docs/report.pdf".data)) = false
    ∧ download_file demoFS2 demoHome "~S1/docs/report.pdf".data 4096 none []
        = [Out.size 4096, errTransfer]
    ∧ [Out.size 4096, errTransfer] ≠ [Out.size 4, Out.bytes [37, 80, 68, 70]] :=
  ⟨rfl, rfl, rfl, rfl, by decide⟩
